import Mathlib

/-!
Verification development for the akiko-venusaur grid-extraction core.

The TypeScript sources are shallowly embedded here:
* `src/lib/util.ts`   → `sortByKeyCached`, `minByKey`, `maxByKey`, `tryParseFloat` (parameter)
* `src/lib/app.ts`    → vectors, segments, edges, cell names
* `src/lib/svg.ts`    → `pointsToRect`, `pathToRects`, `getPathDs`, `findRects`,
                        `getViewBox`, `parseSvg`
* `Editor.svelte`     → `getClosestSelectableEdge`, `selectEdge` (the body of
                        `handleClick` after the nearest-edge query), `handleCellNameInput`
* `+page.svelte`      → `rectToEdges` (the edge-classification loop of `handleSvgInput`)

JavaScript `number` is modelled as `ℝ` (degenerate `NaN`/`Infinity` cases are noted
where they matter), JS strings as Lean `String`, and reference mutation of the
editor state as explicit state-passing; cells addressed by reference in the
source are addressed by their list index here.
-/

namespace Akiko

noncomputable section

/-- A point or direction in document coordinate space (`app.ts` `Vector`). -/
@[ext]
structure Vector where
  x : ℝ
  y : ℝ

/-- An axis-aligned rectangle (`app.ts` `Rect`). -/
@[ext]
structure Rect where
  x : ℝ
  y : ℝ
  width : ℝ
  height : ℝ

/-- `app.ts` `rectScale`. -/
def rectScale (r : Rect) (s : ℝ) : Rect :=
  ⟨r.x * s, r.y * s, r.width * s, r.height * s⟩

/-- `app.ts` `clamp`. -/
def clamp (x min max : ℝ) : ℝ :=
  if x < min then min else if x > max then max else x

/-- `app.ts` `vectorMagnitude`. -/
def vectorMagnitude (v : Vector) : ℝ :=
  Real.sqrt (v.x * v.x + v.y * v.y)

/-- `app.ts` `vectorNormalize`.  In Lean division by a zero magnitude yields `0`
(the JS code yields `NaN` components there); the zero-vector case is what this
convention affects and it is noted at the theorems that touch it. -/
def vectorNormalize (v : Vector) : Vector :=
  let m := vectorMagnitude v
  ⟨v.x / m, v.y / m⟩

/-- `app.ts` `vectorAdd`. -/
def vectorAdd (a b : Vector) : Vector :=
  ⟨a.x + b.x, a.y + b.y⟩

/-- `app.ts` `vectorSub`. -/
def vectorSub (a b : Vector) : Vector :=
  ⟨a.x - b.x, a.y - b.y⟩

/-- `app.ts` `vectorScale`. -/
def vectorScale (v : Vector) (s : ℝ) : Vector :=
  ⟨s * v.x, s * v.y⟩

/-- `app.ts` `vectorDot`. -/
def vectorDot (a b : Vector) : ℝ :=
  a.x * b.x + a.y * b.y

/-- `app.ts` `vectorDistance`. -/
def vectorDistance (a b : Vector) : ℝ :=
  vectorMagnitude (vectorSub b a)

/-- `app.ts` `vectorAngle`, i.e. `Math.atan2(v.y, v.x)`, which coincides with
the complex argument of `v.x + v.y * I`. -/
def vectorAngle (v : Vector) : ℝ :=
  Complex.arg ⟨v.x, v.y⟩

/-- `app.ts` `Segment`. -/
structure Segment where
  start : Vector
  stop : Vector

/-- `app.ts` `segmentLength`. -/
def segmentLength (s : Segment) : ℝ :=
  vectorDistance s.start s.stop

/-- `app.ts` `segmentClosestPoint`. -/
def segmentClosestPoint (s : Segment) (p : Vector) : Vector :=
  let dir := vectorNormalize (vectorSub s.stop s.start)
  let mag := vectorDot (vectorSub p s.start) dir
  let offset := vectorScale dir (clamp mag 0 (segmentLength s))
  vectorAdd s.start offset

/-- `app.ts` `pointSegmentDistance`. -/
def pointSegmentDistance (s : Segment) (p : Vector) : ℝ :=
  vectorDistance p (segmentClosestPoint s p)

/-- Insert `x` into a list, walking past the elements whose key is strictly
smaller; placing `x` before the first element of equal or larger key keeps the
sort stable. -/
def insertByKey {T : Type} (key : T → ℝ) (x : T) : List T → List T
  | [] => [x]
  | y :: ys => if key y < key x then y :: insertByKey key x ys else x :: y :: ys

/-- `util.ts` `sortByKeyCached`: the JS code caches the keys and calls the
(stable, ascending) `Array.prototype.sort`; extensionally this is a stable
sort by the key, modelled here as an insertion sort. -/
def sortByKeyCached {T : Type} : List T → (T → ℝ) → List T
  | [], _ => []
  | t :: ts, key => insertByKey key t (sortByKeyCached ts key)

/-- `util.ts` `minByKey`:  the loop starts with `minKey = Infinity` and takes an
element only when its key is strictly below the best so far, hence it returns
the first element attaining the minimal key (all keys are finite in `ℝ`). -/
def minByKey {T : Type} (ts : List T) (f : T → ℝ) : Option T :=
  ts.foldl
    (fun best t =>
      match best with
      | none => some t
      | some b => if f t < f b then some t else some b)
    none

/-- `util.ts` `maxByKey`, mirror image of `minByKey`. -/
def maxByKey {T : Type} (ts : List T) (f : T → ℝ) : Option T :=
  ts.foldl
    (fun best t =>
      match best with
      | none => some t
      | some b => if f b < f t then some t else some b)
    none

/-- `svg.ts` constant `RIGHT`. -/
def RIGHT : Vector := ⟨1, 0⟩

/-- `svg.ts` constant `DOWN`. -/
def DOWN : Vector := ⟨0, 1⟩

/-- `svg.ts` constant `LEFT`. -/
def LEFT : Vector := ⟨-1, 0⟩

/-- `svg.ts` constant `UP`. -/
def UP : Vector := ⟨0, -1⟩

/-- `svg.ts` `pointsToRect`.  The source sorts the `points` array in place and
then reads indices 0–3; the sort preserves the length-4 check, so the `getD`
defaults are never used. -/
def pointsToRect (points : List Vector) : Option Rect :=
  if points.length ≠ 4 then none
  else
    let center := vectorScale (points.foldl vectorAdd ⟨0, 0⟩) (1 / 4)
    let sorted := sortByKeyCached points (fun p => vectorAngle (vectorSub p center))
    let tl := sorted.getD 0 ⟨0, 0⟩
    let tr := sorted.getD 1 ⟨0, 0⟩
    let br := sorted.getD 2 ⟨0, 0⟩
    let bl := sorted.getD 3 ⟨0, 0⟩
    let THRESHOLD : ℝ := 1 - 0.001
    if vectorDot (vectorNormalize (vectorSub tr tl)) RIGHT < THRESHOLD ∨
        vectorDot (vectorNormalize (vectorSub br tr)) DOWN < THRESHOLD ∨
        vectorDot (vectorNormalize (vectorSub bl br)) LEFT < THRESHOLD ∨
        vectorDot (vectorNormalize (vectorSub tl bl)) UP < THRESHOLD then
      none
    else
      some ⟨(tl.x + bl.x) / 2, (tl.y + tr.y) / 2,
        (tr.x - tl.x + br.x - bl.x) / 2, (bl.y - tl.y + br.y - tr.y) / 2⟩

/-- One parsed drawing-path command (`svg-path-parser`'s `Command`).  The five
curve variants carry parameters in the library, but `pathToRects` ignores them,
so they are modelled as bare constructors. -/
inductive PathCommand where
  | moveto (relative : Bool) (x y : ℝ)
  | lineto (relative : Bool) (x y : ℝ)
  | horizontalLineto (relative : Bool) (x : ℝ)
  | verticalLineto (relative : Bool) (y : ℝ)
  | closepath
  | curveto
  | smoothCurveto
  | quadraticCurveto
  | smoothQuadraticCurveto
  | ellipticalArc

/-- The loop state of `svg.ts` `pathToRects`: accumulated rectangles, the
in-progress point list, and the current point. -/
structure PathScanState where
  rects : List Rect
  points : List Vector
  x : ℝ
  y : ℝ

/-- The loop of `svg.ts` `pathToRects`.  Two `switch` fallthroughs of the
source are reproduced: `moveto` clears the point list and falls into the
`lineto` case, and `verticalLineto` appends its point and then falls into the
`closepath` case (the `closepath` case emits the in-progress list through
`pointsToRect` and clears it).  Any curve command returns the rectangles
collected so far, abandoning the rest of the path. -/
def pathToRectsGo : PathScanState → List PathCommand → List Rect
  | s, [] => s.rects
  | s, PathCommand.moveto rel cx cy :: cs =>
    let x := if rel then s.x + cx else cx
    let y := if rel then s.y + cy else cy
    pathToRectsGo ⟨s.rects, [⟨x, y⟩], x, y⟩ cs
  | s, PathCommand.lineto rel cx cy :: cs =>
    let x := if rel then s.x + cx else cx
    let y := if rel then s.y + cy else cy
    pathToRectsGo ⟨s.rects, s.points ++ [⟨x, y⟩], x, y⟩ cs
  | s, PathCommand.horizontalLineto rel cx :: cs =>
    let x := if rel then s.x + cx else cx
    pathToRectsGo ⟨s.rects, s.points ++ [⟨x, s.y⟩], x, s.y⟩ cs
  | s, PathCommand.verticalLineto rel cy :: cs =>
    let y := if rel then s.y + cy else cy
    let pts := s.points ++ [⟨s.x, y⟩]
    let rects :=
      match pointsToRect pts with
      | some r => s.rects ++ [r]
      | none => s.rects
    pathToRectsGo ⟨rects, [], s.x, y⟩ cs
  | s, PathCommand.closepath :: cs =>
    let rects :=
      match pointsToRect s.points with
      | some r => s.rects ++ [r]
      | none => s.rects
    pathToRectsGo ⟨rects, [], s.x, s.y⟩ cs
  | s, PathCommand.curveto :: _ => s.rects
  | s, PathCommand.smoothCurveto :: _ => s.rects
  | s, PathCommand.quadraticCurveto :: _ => s.rects
  | s, PathCommand.smoothQuadraticCurveto :: _ => s.rects
  | s, PathCommand.ellipticalArc :: _ => s.rects

/-- `svg.ts` `pathToRects`. -/
def pathToRects (path : List PathCommand) : List Rect :=
  pathToRectsGo ⟨[], [], 0, 0⟩ path

/-- The vector-path interpreter as §4.1 of the spec describes it, for
comparison with `pathToRectsGo`: a `vertical-line` command only updates the
current point's `y` and appends the point; only a `close` command emits the
in-progress list as a closed-shape candidate and clears it. -/
def pathToRectsSpecGo : PathScanState → List PathCommand → List Rect
  | s, [] => s.rects
  | s, PathCommand.moveto rel cx cy :: cs =>
    let x := if rel then s.x + cx else cx
    let y := if rel then s.y + cy else cy
    pathToRectsSpecGo ⟨s.rects, [⟨x, y⟩], x, y⟩ cs
  | s, PathCommand.lineto rel cx cy :: cs =>
    let x := if rel then s.x + cx else cx
    let y := if rel then s.y + cy else cy
    pathToRectsSpecGo ⟨s.rects, s.points ++ [⟨x, y⟩], x, y⟩ cs
  | s, PathCommand.horizontalLineto rel cx :: cs =>
    let x := if rel then s.x + cx else cx
    pathToRectsSpecGo ⟨s.rects, s.points ++ [⟨x, s.y⟩], x, s.y⟩ cs
  | s, PathCommand.verticalLineto rel cy :: cs =>
    let y := if rel then s.y + cy else cy
    pathToRectsSpecGo ⟨s.rects, s.points ++ [⟨s.x, y⟩], s.x, y⟩ cs
  | s, PathCommand.closepath :: cs =>
    let rects :=
      match pointsToRect s.points with
      | some r => s.rects ++ [r]
      | none => s.rects
    pathToRectsSpecGo ⟨rects, [], s.x, s.y⟩ cs
  | s, PathCommand.curveto :: _ => s.rects
  | s, PathCommand.smoothCurveto :: _ => s.rects
  | s, PathCommand.quadraticCurveto :: _ => s.rects
  | s, PathCommand.smoothQuadraticCurveto :: _ => s.rects
  | s, PathCommand.ellipticalArc :: _ => s.rects

/-- The spec-described interpreter run on a whole path. -/
def pathToRectsSpec (path : List PathCommand) : List Rect :=
  pathToRectsSpecGo ⟨[], [], 0, 0⟩ path

/-- A property value of an `svg-parser` element node (`string | number`). -/
inductive PropVal where
  | str (s : String)
  | num (x : ℝ)

/-- The element properties `svg.ts` reads. -/
structure Props where
  d : Option PropVal
  viewBox : Option PropVal

/-- An `svg-parser` document node.  The library's children arrays may also hold
raw strings; `getPathDs` skips raw strings and `TextNode`s identically, so both
are modelled by the `text` constructor. -/
inductive Node where
  | text (value : String)
  | element (tagName : String) (properties : Option Props) (children : List Node)

/-- The root returned by `svg-parser.parse`.  The source only ever reads
`root.children[0]`, which exists for every successfully parsed document, so
only that first child is modelled. -/
structure RootNode where
  children0 : Node

/-- `svg.ts` `elementNodeToPathD`. -/
def elementNodeToPathD (tagName : String) (properties : Option Props) : Option String :=
  if tagName = "path" then
    match properties with
    | some props =>
      match props.d with
      | some (PropVal.str s) => some s
      | _ => none
    | none => none
  else none

/-- `svg.ts` `getPathDs`: depth-first collection of path-data strings; a `path`
element contributes its `d` and is not recursed into (first match wins per
branch). -/
def getPathDs : Node → List String
  | Node.text _ => []
  | Node.element tagName properties children =>
    match elementNodeToPathD tagName properties with
    | some d => [d]
    | none => (children.attach.map (fun m => getPathDs m.val)).flatten
decreasing_by
  have := List.sizeOf_lt_of_mem m.2
  simp only [Node.element.sizeOf_spec]
  omega

/-- The loop of `svg.ts` `findRects` over the collected path strings,
parameterised by the external `svg-path-parser.parseSVG` (its exception is
modelled as `none`): the first unparsable string aborts the whole extraction. -/
def findRectsGo (parsePath : String → Option (List PathCommand)) :
    List String → Option (List Rect)
  | [] => some []
  | d :: ds =>
    match parsePath d with
    | none => none
    | some path =>
      match findRectsGo parsePath ds with
      | none => none
      | some rest => some (pathToRects path ++ rest)

/-- `svg.ts` `findRects`. -/
def findRects (parsePath : String → Option (List PathCommand)) (root : RootNode) :
    Option (List Rect) :=
  findRectsGo parsePath (getPathDs root.children0)

/-- Splitting a string into its maximal whitespace-free runs.  The source
computes `trim().replaceAll(/\s+/g, " ").split(" ")`, which yields exactly
these runs, except that the all-whitespace string gives `[""]` there and `[]`
here; both fail the subsequent length-4 check, so `getViewBox` is unaffected. -/
def wordsGo : List Char → List Char → List (List Char)
  | [], acc => if acc.isEmpty then [] else [acc.reverse]
  | c :: cs, acc =>
    if c.isWhitespace then
      if acc.isEmpty then wordsGo cs [] else acc.reverse :: wordsGo cs []
    else wordsGo cs (c :: acc)

/-- The chunk list `getViewBox` builds from the `viewBox` attribute string. -/
def viewBoxChunks (s : String) : List String :=
  (wordsGo s.data []).map (fun l => ⟨l⟩)

/-- The `viewBox` attribute string of the document's first node: the source's
combined guard (first child is an element whose properties carry a string
`viewBox`) together with the extraction of that string.  The extent is
"absent" exactly when this is `none`. -/
def viewBoxString (root : RootNode) : Option String :=
  match root.children0 with
  | Node.element _ (some props) _ =>
    match props.viewBox with
    | some (PropVal.str s) => some s
    | _ => none
  | _ => none

/-- `svg.ts` `getViewBox`, parameterised by `util.ts` `tryParseFloat` (whose
core is the host `parseFloat`).  The guard on the first node is
`viewBoxString`; the four chunks are destructured as left, top, right,
bottom. -/
def getViewBox (tryParseFloat : String → Option ℝ) (root : RootNode) : Option Rect :=
  match viewBoxString root with
  | none => none
  | some s =>
    let chunks := viewBoxChunks s
    if chunks.length = 4 then
      match tryParseFloat (chunks.getD 0 ""), tryParseFloat (chunks.getD 1 ""),
          tryParseFloat (chunks.getD 2 ""), tryParseFloat (chunks.getD 3 "") with
      | some left, some top, some right, some bottom =>
        some ⟨left, top, right - left, bottom - top⟩
      | _, _, _, _ => none
    else none

/-- The successful result of `svg.ts` `parseSvg`. -/
structure ParsedSvg where
  rects : List Rect
  width : ℝ
  height : ℝ

/-- `svg.ts` `parseSvg`, parameterised by the external document parser
(`svg-parser.parse`, its exception modelled as `none`), the external path-data
parser, and the float parser.  Every failure path returns `none`: no partial
result escapes. -/
def parseSvg (parseDoc : String → Option RootNode)
    (parsePath : String → Option (List PathCommand))
    (tryParseFloat : String → Option ℝ) (svg : String) : Option ParsedSvg :=
  match parseDoc svg with
  | none => none
  | some root =>
    match findRects parsePath root with
    | none => none
    | some rects =>
      match getViewBox tryParseFloat root with
      | none => none
      | some viewBox =>
        if viewBox.x ≠ 0 ∨ viewBox.y ≠ 0 then none
        else some ⟨rects, viewBox.width, viewBox.height⟩

/-- The four edge directions (`app.ts` `Edge` kinds). -/
inductive EdgeKind where
  | top
  | right
  | bottom
  | left
deriving DecidableEq

/-- `app.ts` `Edge`.  The source union stores a `width` field on top/bottom
edges and a `height` field on left/right edges; the single `span` field here
plays both roles, selected by `kind`. -/
structure Edge where
  kind : EdgeKind
  x : ℝ
  y : ℝ
  span : ℝ

/-- `app.ts` `edgeToSegment`. -/
def edgeToSegment (e : Edge) : Segment :=
  match e.kind with
  | EdgeKind.top => ⟨⟨e.x, e.y⟩, ⟨e.x + e.span, e.y⟩⟩
  | EdgeKind.bottom => ⟨⟨e.x, e.y⟩, ⟨e.x + e.span, e.y⟩⟩
  | EdgeKind.left => ⟨⟨e.x, e.y⟩, ⟨e.x, e.y + e.span⟩⟩
  | EdgeKind.right => ⟨⟨e.x, e.y⟩, ⟨e.x, e.y + e.span⟩⟩

/-- `app.ts` `CellPosition`.  The row is a JS number that only ever holds the
value of a parsed digit run or its increments, modelled as `ℕ`. -/
structure CellPosition where
  column : Char
  row : ℕ
deriving DecidableEq

/-- The numeric value of a digit run, as `parseInt` computes it on an all-digit
string. -/
def digitsToNat (ds : List Char) : ℕ :=
  ds.foldl (fun n d => 10 * n + (d.toNat - Char.toNat '0')) 0

/-- `app.ts` `cellNameToCellPosition`.  The regex `^([a-h])(\d+)$` demands one
lowercase letter `a`–`h` and then one or more decimal digits; `parseInt` of a
nonempty all-digit string is never `NaN`, so the `isNaN` guard never fires and
the row is the numeric value of the digit run. -/
def cellNameToCellPosition (name : String) : Option CellPosition :=
  match name.data with
  | [] => none
  | c :: rest =>
    if ('a' ≤ c ∧ c ≤ 'h') ∧ rest ≠ [] ∧ rest.all Char.isDigit then
      some ⟨c, digitsToNat rest⟩
    else none

/-- `app.ts` `cellPositionToCellName`. -/
def cellPositionToCellName (p : CellPosition) : String :=
  String.singleton p.column ++ toString p.row

/-- `Editor.svelte` `Cell`. -/
structure Cell where
  id : ℕ
  name : String
  rect : Rect

/-- The four optional selection slots of `Editor.svelte`'s `selectedEdges`. -/
structure SelectedEdges where
  top : Option Edge
  right : Option Edge
  bottom : Option Edge
  left : Option Edge

/-- `Editor.svelte` `EditorState`. -/
structure EditorState where
  svgUrl : String
  svgWidth : ℝ
  svgHeight : ℝ
  edges : List Edge
  highlightedEdge : Option Edge
  selectedEdges : SelectedEdges
  cells : List Cell
  cellCreatedCount : ℕ

/-- The slot the given kind indexes, as the `predicate` object of
`getClosestSelectableEdge` reads it. -/
def slotOf (s : SelectedEdges) (k : EdgeKind) : Option Edge :=
  match k with
  | EdgeKind.top => s.top
  | EdgeKind.right => s.right
  | EdgeKind.bottom => s.bottom
  | EdgeKind.left => s.left

/-- `Editor.svelte` `getClosestSelectableEdge`: filter the edges whose kind's
slot is empty, take the distance-minimal one, and keep it only when its
distance is strictly below `50 / viewScale`. -/
def getClosestSelectableEdge (app : EditorState) (viewScale : ℝ) (p : Vector) :
    Option Edge :=
  let es := app.edges.filter (fun e => (slotOf app.selectedEdges e.kind).isNone)
  match minByKey es (fun e => pointSegmentDistance (edgeToSegment e) p) with
  | none => none
  | some e =>
    if pointSegmentDistance (edgeToSegment e) p < 50 / viewScale then some e
    else none

/-- The write `editor.selectedEdges[closest.kind] = closest`. -/
def setSelectedEdge (s : SelectedEdges) (e : Edge) : SelectedEdges :=
  match e.kind with
  | EdgeKind.top => ⟨some e, s.right, s.bottom, s.left⟩
  | EdgeKind.right => ⟨s.top, some e, s.bottom, s.left⟩
  | EdgeKind.bottom => ⟨s.top, s.right, some e, s.left⟩
  | EdgeKind.left => ⟨s.top, s.right, s.bottom, some e⟩

/-- The label-inference block of `Editor.svelte` `handleClick` (its lines
between cell construction and `cells.push`): the completed cell keeps its
default name unless a parseable-named cell directly above is found. -/
def inferCellName (cells : List Cell) (rect : Rect) (dflt : String) : String :=
  let centerX := rect.x + rect.width / 2
  let topY := rect.y
  let alignedCells := cells.filter (fun c =>
    decide (c.rect.y + c.rect.height < topY ∧ c.rect.x ≤ centerX ∧
      centerX ≤ c.rect.x + c.rect.width))
  match maxByKey alignedCells (fun c => c.rect.y + c.rect.height) with
  | none => dflt
  | some cellAbove =>
    match cellNameToCellPosition cellAbove.name with
    | none => dflt
    | some pos => cellPositionToCellName ⟨pos.column, pos.row + 1⟩

/-- The tail of `Editor.svelte` `handleClick` once a closest selectable edge is
known: fill its slot and, when all four slots are then occupied, complete a
cell. -/
def selectEdge (keepVerticalSelection : Bool) (st : EditorState) (closest : Edge) :
    EditorState :=
  let sel := setSelectedEdge st.selectedEdges closest
  match sel.top, sel.right, sel.bottom, sel.left with
  | some t, some r, some b, some l =>
    let count := st.cellCreatedCount + 1
    let rect : Rect := ⟨r.x, b.y, l.x - r.x, t.y - b.y⟩
    let cell : Cell := ⟨count, inferCellName st.cells rect (toString count), rect⟩
    ⟨st.svgUrl, st.svgWidth, st.svgHeight, st.edges, none,
      ⟨none,
        if keepVerticalSelection then sel.right else none,
        none,
        if keepVerticalSelection then sel.left else none⟩,
      st.cells ++ [cell], count⟩
  | _, _, _, _ =>
    ⟨st.svgUrl, st.svgWidth, st.svgHeight, st.edges, st.highlightedEdge, sel,
      st.cells, st.cellCreatedCount⟩

/-- `Editor.svelte` `handleClick` for a pointer position already converted to
image coordinates (`mouseEventToCursorPosition` is display glue and returns
`none` off-image). -/
def handleClick (keepVerticalSelection : Bool) (viewScale : ℝ) (st : EditorState)
    (pos : Option Vector) : EditorState :=
  match pos with
  | none => st
  | some p =>
    match getClosestSelectableEdge st viewScale p with
    | none => st
    | some closest => selectEdge keepVerticalSelection st closest

/-- The body of the rename cascade's `for` loop in `handleCellNameInput`: the
cell at index `j` gets the next cascaded name, keeping its id and rect; the
second component is the loop index `i` of the source. -/
def renameStep (pos : CellPosition) (cell : Cell) (acc : List Cell × ℕ) (j : ℕ) :
    List Cell × ℕ :=
  (acc.1.set j
    ⟨(acc.1.getD j cell).id,
      cellPositionToCellName ⟨pos.column, pos.row + acc.2 + 1⟩,
      (acc.1.getD j cell).rect⟩,
    acc.2 + 1)

/-- `Editor.svelte` `handleCellNameInput`.  The source mutates cell objects
through references; here the renamed cell is addressed by its index `i` in the
cell list and the cascade updates the matching indices.  The filter runs over
the whole cell list (the renamed cell included), exactly as the source's
`editor.cells.filter` does. -/
def handleCellNameInput (cells : List Cell) (i : ℕ) (value : String) : List Cell :=
  match cells.get? i with
  | none => cells
  | some cell =>
    let cells1 := cells.set i ⟨cell.id, value, cell.rect⟩
    match cellNameToCellPosition value with
    | none => cells1
    | some pos =>
      let centerX := cell.rect.x + cell.rect.width / 2
      let bottomY := cell.rect.y + cell.rect.height
      let aligned := (List.range cells1.length).filter (fun j =>
        match cells1.get? j with
        | some c =>
          decide (bottomY < c.rect.y ∧ c.rect.x ≤ centerX ∧
            centerX ≤ c.rect.x + c.rect.width)
        | none => false)
      let sortedIdx := sortByKeyCached aligned (fun j => (cells1.getD j cell).rect.y)
      (sortedIdx.foldl (renameStep pos cell) (cells1, 0)).1

/-- The edge-classification loop body of `+page.svelte` `handleSvgInput`: one
candidate rectangle either contributes nothing (elongation below 11) or its
four border edges, in the order top, bottom, left, right. -/
def rectToEdges (r : Rect) : List Edge :=
  let ratio := max r.width r.height / min r.width r.height
  if ratio < 11 then []
  else
    [⟨EdgeKind.top, r.x, r.y, r.width⟩,
      ⟨EdgeKind.bottom, r.x, r.y + r.height, r.width⟩,
      ⟨EdgeKind.left, r.x, r.y, r.height⟩,
      ⟨EdgeKind.right, r.x + r.width, r.y, r.height⟩]

/-- The whole edge list `handleSvgInput` builds from the extracted rectangles. -/
def handleSvgInputEdges (rects : List Rect) : List Edge :=
  rects.foldl (fun es r => es ++ rectToEdges r) []

/-- The rejection condition of the quadrilateral reconstructor as the spec
words it (§4.2): wrong corner count, or some side of the angularly sorted,
labeled quadrilateral with cosine similarity below the literal `0.999` against
its expected axis direction.  Stated for comparison with `pointsToRect`. -/
def notARectangle (points : List Vector) : Prop :=
  points.length ≠ 4 ∨
    (let center := vectorScale (points.foldl vectorAdd ⟨0, 0⟩) (1 / 4)
     let sorted := sortByKeyCached points (fun p => vectorAngle (vectorSub p center))
     let tl := sorted.getD 0 ⟨0, 0⟩
     let tr := sorted.getD 1 ⟨0, 0⟩
     let br := sorted.getD 2 ⟨0, 0⟩
     let bl := sorted.getD 3 ⟨0, 0⟩
     vectorDot (vectorNormalize (vectorSub tr tl)) RIGHT < 0.999 ∨
       vectorDot (vectorNormalize (vectorSub br tr)) DOWN < 0.999 ∨
       vectorDot (vectorNormalize (vectorSub bl br)) LEFT < 0.999 ∨
       vectorDot (vectorNormalize (vectorSub tl bl)) UP < 0.999)

/-- A 2-by-2 axis-aligned square traversed from its top-left corner. -/
def square4 : List Vector := [⟨0, 0⟩, ⟨2, 0⟩, ⟨2, 2⟩, ⟨0, 2⟩]

/-- The path `M0 0 L2 0 V2 L0 2 Z`, which draws `square4` using one
vertical-line command. -/
def fallthroughPath : List PathCommand :=
  [PathCommand.moveto false 0 0, PathCommand.lineto false 2 0,
    PathCommand.verticalLineto false 2, PathCommand.lineto false 0 2,
    PathCommand.closepath]

/-- Fixture: a top edge at `y = 25` spanning `x ∈ [0, 10]`. -/
def edgeTop0 : Edge := ⟨EdgeKind.top, 0, 25, 10⟩

/-- Fixture: a right edge at `x = 0`. -/
def edgeRight0 : Edge := ⟨EdgeKind.right, 0, 20, 5⟩

/-- Fixture: a bottom edge at `y = 20`. -/
def edgeBottom0 : Edge := ⟨EdgeKind.bottom, 0, 20, 10⟩

/-- Fixture: a left edge at `x = 10`. -/
def edgeLeft0 : Edge := ⟨EdgeKind.left, 10, 20, 5⟩

/-- Fixture: top, right and bottom slots filled, left still empty. -/
def selThreeSlots : SelectedEdges :=
  ⟨some edgeTop0, some edgeRight0, some edgeBottom0, none⟩

/-- Fixture: an editor about to complete its first cell. -/
def stC2 : EditorState := ⟨"", 0, 0, [], none, selThreeSlots, [], 0⟩

/-- Fixture: a cell named `a1` spanning `x ∈ [0, 10]`, `y ∈ [0, 10]`. -/
def cellA : Cell := ⟨1, "a1", ⟨0, 0, 10, 10⟩⟩

/-- Fixture: an editor holding `cellA`, about to complete a cell below it. -/
def stC7 : EditorState := ⟨"", 0, 0, [], none, selThreeSlots, [cellA], 1⟩

/-- Fixture: a top edge along `y = 0`, `x ∈ [0, 10]`. -/
def edgeTopC8 : Edge := ⟨EdgeKind.top, 0, 0, 10⟩

/-- Fixture: a left edge along `x = 5`. -/
def edgeLeftC8 : Edge := ⟨EdgeKind.left, 5, 0, 10⟩

/-- Fixture: an editor with one selectable top edge and a filled left slot. -/
def stC8 : EditorState :=
  ⟨"", 0, 0, [edgeTopC8, edgeLeftC8], none, ⟨none, none, none, some edgeLeftC8⟩, [], 0⟩

/-- Fixture: a cell whose rect has negative height, so that its own top lies
strictly below its own bottom. -/
def cellNegH : Cell := ⟨1, "x", ⟨0, 0, 1, -1⟩⟩

/-- Fixture: a `b2` cell with another cell in the band directly below it. -/
def cellsC10 : List Cell := [⟨1, "b2", ⟨0, 0, 10, 10⟩⟩, ⟨2, "x", ⟨0, 20, 10, 5⟩⟩]

theorem insertByKey_perm {T : Type} (key : T → ℝ) (x : T) (l : List T) :
    (insertByKey key x l).Perm (x :: l) := by
  induction l with
  | nil => simp [insertByKey]
  | cons y ys ih =>
    unfold insertByKey
    by_cases h : key y < key x
    · rw [if_pos h]
      exact (ih.cons y).trans (List.Perm.swap x y ys)
    · rw [if_neg h]

theorem sortByKeyCached_perm {T : Type} (l : List T) (key : T → ℝ) :
    (sortByKeyCached l key).Perm l := by
  induction l with
  | nil => simp [sortByKeyCached]
  | cons t ts ih =>
    exact (insertByKey_perm key t (sortByKeyCached ts key)).trans (ih.cons t)

theorem insertByKey_sorted {T : Type} (key : T → ℝ) (x : T) (l : List T)
    (h : l.Pairwise (fun a b => key a ≤ key b)) :
    (insertByKey key x l).Pairwise (fun a b => key a ≤ key b) := by
  induction l with
  | nil => simp [insertByKey]
  | cons y ys ih =>
    rcases List.pairwise_cons.mp h with ⟨hy, hys⟩
    unfold insertByKey
    by_cases hcmp : key y < key x
    · rw [if_pos hcmp]
      refine List.pairwise_cons.mpr ⟨?_, ih hys⟩
      intro z hz
      rcases List.mem_cons.mp ((List.Perm.mem_iff (insertByKey_perm key x ys)).mp hz) with
        hz | hz
      · rw [hz]; exact le_of_lt hcmp
      · exact hy z hz
    · rw [if_neg hcmp]
      refine List.pairwise_cons.mpr ⟨?_, h⟩
      intro z hz
      rcases List.mem_cons.mp hz with hz | hz
      · rw [hz]; exact le_of_not_lt hcmp
      · exact le_trans (le_of_not_lt hcmp) (hy z hz)

theorem sortByKeyCached_sorted {T : Type} (l : List T) (key : T → ℝ) :
    (sortByKeyCached l key).Pairwise (fun a b => key a ≤ key b) := by
  induction l with
  | nil => simp [sortByKeyCached]
  | cons t ts ih => exact insertByKey_sorted key t _ ih

theorem minByKey_foldl_spec {T : Type} (f : T → ℝ) (l : List T) (b : T) :
    ∃ c, l.foldl
        (fun best t =>
          match best with
          | none => some t
          | some b => if f t < f b then some t else some b)
        (some b) = some c ∧ (c ∈ l ∨ c = b) ∧ f c ≤ f b ∧ ∀ t ∈ l, f c ≤ f t := by
  induction l generalizing b with
  | nil => exact ⟨b, rfl, Or.inr rfl, le_refl _, by simp⟩
  | cons t ts ih =>
    by_cases h : f t < f b
    · rcases ih t with ⟨c, hfold, hmem, hle, hall⟩
      refine ⟨c, ?_, ?_, le_trans hle (le_of_lt h), ?_⟩
      · simpa [if_pos h] using hfold
      · rcases hmem with hc | hc
        · exact Or.inl (List.mem_cons_of_mem _ hc)
        · exact Or.inl (hc ▸ List.mem_cons_self _ _)
      · intro u hu
        rcases List.mem_cons.mp hu with hu | hu
        · exact hu ▸ hle
        · exact hall u hu
    · rcases ih b with ⟨c, hfold, hmem, hle, hall⟩
      refine ⟨c, ?_, ?_, hle, ?_⟩
      · simpa [if_neg h] using hfold
      · rcases hmem with hc | hc
        · exact Or.inl (List.mem_cons_of_mem _ hc)
        · exact Or.inr hc
      · intro u hu
        rcases List.mem_cons.mp hu with hu | hu
        · exact hu ▸ le_trans hle (le_of_not_lt h)
        · exact hall u hu

theorem minByKey_spec {T : Type} (f : T → ℝ) (l : List T) (c : T)
    (h : minByKey l f = some c) : c ∈ l ∧ ∀ t ∈ l, f c ≤ f t := by
  cases l with
  | nil => simp [minByKey] at h
  | cons t ts =>
    rcases minByKey_foldl_spec f ts t with ⟨c', hfold, hmem, hle, hall⟩
    have : minByKey (t :: ts) f = some c' := by
      simpa [minByKey] using hfold
    rw [this] at h
    injection h with h
    subst h
    refine ⟨?_, ?_⟩
    · rcases hmem with hc | hc
      · exact List.mem_cons_of_mem _ hc
      · exact hc ▸ List.mem_cons_self _ _
    · intro u hu
      rcases List.mem_cons.mp hu with hu | hu
      · exact hu ▸ hle
      · exact hall u hu

theorem minByKey_eq_none {T : Type} (f : T → ℝ) (l : List T) :
    minByKey l f = none ↔ l = [] := by
  cases l with
  | nil => simp [minByKey]
  | cons t ts =>
    rcases minByKey_foldl_spec f ts t with ⟨c, hfold, _, _, _⟩
    simp only [minByKey, List.foldl_cons]
    rw [hfold]
    simp

theorem maxByKey_foldl_spec {T : Type} (f : T → ℝ) (l : List T) (b : T) :
    ∃ c, l.foldl
        (fun best t =>
          match best with
          | none => some t
          | some b => if f b < f t then some t else some b)
        (some b) = some c ∧ (c ∈ l ∨ c = b) ∧ f b ≤ f c ∧ ∀ t ∈ l, f t ≤ f c := by
  induction l generalizing b with
  | nil => exact ⟨b, rfl, Or.inr rfl, le_refl _, by simp⟩
  | cons t ts ih =>
    by_cases h : f b < f t
    · rcases ih t with ⟨c, hfold, hmem, hle, hall⟩
      refine ⟨c, ?_, ?_, le_trans (le_of_lt h) hle, ?_⟩
      · simpa [if_pos h] using hfold
      · rcases hmem with hc | hc
        · exact Or.inl (List.mem_cons_of_mem _ hc)
        · exact Or.inl (hc ▸ List.mem_cons_self _ _)
      · intro u hu
        rcases List.mem_cons.mp hu with hu | hu
        · exact hu ▸ hle
        · exact hall u hu
    · rcases ih b with ⟨c, hfold, hmem, hle, hall⟩
      refine ⟨c, ?_, ?_, hle, ?_⟩
      · simpa [if_neg h] using hfold
      · rcases hmem with hc | hc
        · exact Or.inl (List.mem_cons_of_mem _ hc)
        · exact Or.inr hc
      · intro u hu
        rcases List.mem_cons.mp hu with hu | hu
        · exact hu ▸ le_trans (le_of_not_lt h) hle
        · exact hall u hu

theorem maxByKey_spec {T : Type} (f : T → ℝ) (l : List T) (c : T)
    (h : maxByKey l f = some c) : c ∈ l ∧ ∀ t ∈ l, f t ≤ f c := by
  cases l with
  | nil => simp [maxByKey] at h
  | cons t ts =>
    rcases maxByKey_foldl_spec f ts t with ⟨c', hfold, hmem, hle, hall⟩
    have : maxByKey (t :: ts) f = some c' := by
      simpa [maxByKey] using hfold
    rw [this] at h
    injection h with h
    subst h
    refine ⟨?_, ?_⟩
    · rcases hmem with hc | hc
      · exact List.mem_cons_of_mem _ hc
      · exact hc ▸ List.mem_cons_self _ _
    · intro u hu
      rcases List.mem_cons.mp hu with hu | hu
      · exact hu ▸ hle
      · exact hall u hu

theorem maxByKey_eq_none {T : Type} (f : T → ℝ) (l : List T) :
    maxByKey l f = none ↔ l = [] := by
  cases l with
  | nil => simp [maxByKey]
  | cons t ts =>
    rcases maxByKey_foldl_spec f ts t with ⟨c, hfold, _, _, _⟩
    simp only [maxByKey, List.foldl_cons]
    rw [hfold]
    simp

/-- C9: the edge classifier emits no edges for a candidate rectangle whose
elongation (longer side over shorter side) is below 11, and for a rectangle
with elongation at least 11 it emits exactly four edges, one per kind, all
positioned from the rectangle's own bounding box. -/
theorem C9_rectToEdges_elongation (r : Rect) :
    (max r.width r.height / min r.width r.height < 11 → rectToEdges r = []) ∧
    (11 ≤ max r.width r.height / min r.width r.height →
      rectToEdges r =
        [⟨EdgeKind.top, r.x, r.y, r.width⟩,
          ⟨EdgeKind.bottom, r.x, r.y + r.height, r.width⟩,
          ⟨EdgeKind.left, r.x, r.y, r.height⟩,
          ⟨EdgeKind.right, r.x + r.width, r.y, r.height⟩]) := by
  constructor
  · intro h
    simp only [rectToEdges]
    rw [if_pos h]
  · intro h
    simp only [rectToEdges]
    rw [if_neg (not_lt.mpr h)]

/-- Witness for C9 at the 12-by-1 rectangle, whose elongation is 12. -/
theorem C9_rectToEdges_elongation_witness :
    rectToEdges ⟨0, 0, 12, 1⟩ =
      [⟨EdgeKind.top, 0, 0, 12⟩, ⟨EdgeKind.bottom, 0, 0 + 1, 12⟩,
        ⟨EdgeKind.left, 0, 0, 1⟩, ⟨EdgeKind.right, 0 + 12, 0, 1⟩] := by
  apply (C9_rectToEdges_elongation ⟨0, 0, 12, 1⟩).2
  show (11 : ℝ) ≤ max 12 1 / min 12 1
  rw [max_eq_left (by norm_num : (1 : ℝ) ≤ 12), min_eq_right (by norm_num : (1 : ℝ) ≤ 12)]
  norm_num

/-- C3 counterexample: `"a0"` parses successfully and yields row `0`, refuting
both the claimed success condition (letter followed by a positive decimal) and
the claimed row-positivity of successful results. -/
theorem C3_cellName_a0 :
    cellNameToCellPosition "a0" = some ⟨'a', 0⟩ ∧
      (⟨'a', 0⟩ : CellPosition).row < 1 := by
  constructor
  · decide
  · decide

/-- C3 amended: `cellNameToCellPosition` succeeds exactly when the name is one
lowercase letter `a`–`h` followed by one or more decimal digits (so `"a0"` and
leading zeros are accepted), and every successful result has the leading letter
as column and the numeric value of the digit run (possibly `0`) as row. -/
theorem C3_cellNameToCellPosition_amended (name : String) :
    ((cellNameToCellPosition name).isSome ↔
      ∃ c ds, name.data = c :: ds ∧ 'a' ≤ c ∧ c ≤ 'h' ∧ ds ≠ [] ∧
        ∀ d ∈ ds, d.isDigit) ∧
    ∀ p, cellNameToCellPosition name = some p →
      name.data = p.column :: name.data.tail ∧ p.row = digitsToNat name.data.tail := by
  rcases hd : name.data with _ | ⟨c, rest⟩
  · have he : cellNameToCellPosition name = none := by
      unfold cellNameToCellPosition
      rw [hd]
    rw [he]
    constructor
    · simp
    · intro p hp
      cases hp
  · have he : cellNameToCellPosition name =
        if ('a' ≤ c ∧ c ≤ 'h') ∧ rest ≠ [] ∧ rest.all Char.isDigit then
          some ⟨c, digitsToNat rest⟩
        else none := by
      unfold cellNameToCellPosition
      rw [hd]
    rw [he]
    by_cases hcond : ('a' ≤ c ∧ c ≤ 'h') ∧ rest ≠ [] ∧ rest.all Char.isDigit
    · rw [if_pos hcond]
      obtain ⟨⟨h1, h2⟩, h3, h4⟩ := hcond
      constructor
      · exact iff_of_true rfl ⟨c, rest, rfl, h1, h2, h3, by simpa [List.all_eq_true] using h4⟩
      · intro p hp
        injection hp with hp
        subst hp
        simp
    · rw [if_neg hcond]
      constructor
      · refine iff_of_false (by simp) ?_
        rintro ⟨c', ds, heq, hh1, hh2, hh3, hh4⟩
        injection heq with heqc heqd
        subst heqc
        subst heqd
        exact hcond ⟨⟨hh1, hh2⟩, hh3, List.all_eq_true.mpr hh4⟩
      · intro p hp
        cases hp

theorem vectorMagnitude_nonneg (v : Vector) : 0 ≤ vectorMagnitude v :=
  Real.sqrt_nonneg _

theorem pos_of_threshold {a m : ℝ} (hm : 0 ≤ m) (h : 1 - 0.001 ≤ a / m) : 0 < a := by
  have h1 : (0 : ℝ) < 1 - 0.001 := by norm_num
  have h2 : (0 : ℝ) < a / m := lt_of_lt_of_le h1 h
  rcases div_pos_iff.mp h2 with ⟨ha, _⟩ | ⟨_, hm2⟩
  · exact ha
  · linarith

theorem vectorSub_x (a b : Vector) : (vectorSub a b).x = a.x - b.x := rfl

theorem vectorSub_y (a b : Vector) : (vectorSub a b).y = a.y - b.y := rfl

theorem dot_normalize_right (w : Vector) :
    vectorDot (vectorNormalize w) RIGHT = w.x / vectorMagnitude w := by
  simp [vectorDot, vectorNormalize, RIGHT]

theorem dot_normalize_down (w : Vector) :
    vectorDot (vectorNormalize w) DOWN = w.y / vectorMagnitude w := by
  simp [vectorDot, vectorNormalize, DOWN]

theorem dot_normalize_left (w : Vector) :
    vectorDot (vectorNormalize w) LEFT = -w.x / vectorMagnitude w := by
  simp [vectorDot, vectorNormalize, LEFT]
  ring

theorem dot_normalize_up (w : Vector) :
    vectorDot (vectorNormalize w) UP = -w.y / vectorMagnitude w := by
  simp [vectorDot, vectorNormalize, UP]
  ring

/-- C4: whenever the quadrilateral reconstructor succeeds, the returned
rectangle has nonnegative width and height.  (In the real-valued model a
degenerate zero-length side gives a normalized dot of `0`, which fails the
tolerance check, so success forces all four side directions to be strict.) -/
theorem C4_pointsToRect_nonneg (points : List Vector) (r : Rect)
    (h : pointsToRect points = some r) : 0 ≤ r.width ∧ 0 ≤ r.height := by
  simp only [pointsToRect] at h
  split_ifs at h with h1 h2
  push_neg at h2
  obtain ⟨hd1, hd2, hd3, hd4⟩ := h2
  rw [dot_normalize_right] at hd1
  rw [dot_normalize_down] at hd2
  rw [dot_normalize_left] at hd3
  rw [dot_normalize_up] at hd4
  have w1 := pos_of_threshold (vectorMagnitude_nonneg _) hd1
  have w2 := pos_of_threshold (vectorMagnitude_nonneg _) hd2
  have w3 := pos_of_threshold (vectorMagnitude_nonneg _) hd3
  have w4 := pos_of_threshold (vectorMagnitude_nonneg _) hd4
  rw [vectorSub_x] at w1
  rw [vectorSub_y] at w2
  rw [vectorSub_x] at w3
  rw [vectorSub_y] at w4
  injection h with h
  subst h
  constructor
  · dsimp only
    linarith
  · dsimp only
    linarith

theorem sqrt_four : Real.sqrt 4 = 2 := by
  rw [show (4 : ℝ) = 2 ^ 2 by norm_num]
  exact Real.sqrt_sq (by norm_num)

theorem arg_m1m1_le_arg_1m1 : Complex.arg ⟨-1, -1⟩ ≤ Complex.arg ⟨1, -1⟩ := by
  rw [Complex.arg_of_im_neg (show ((⟨-1, -1⟩ : ℂ)).im < 0 by norm_num),
    Complex.arg_of_im_neg (show ((⟨1, -1⟩ : ℂ)).im < 0 by norm_num)]
  have h1 : Real.arccos ((⟨1, -1⟩ : ℂ).re / Complex.abs ⟨1, -1⟩) ≤ Real.pi / 2 :=
    Real.arccos_le_pi_div_two.mpr (div_nonneg (by norm_num) (Complex.abs.nonneg _))
  have h2 : Real.pi / 2 ≤ Real.arccos ((⟨-1, -1⟩ : ℂ).re / Complex.abs ⟨-1, -1⟩) := by
    have hx : (⟨-1, -1⟩ : ℂ).re / Complex.abs ⟨-1, -1⟩ ≤ 0 :=
      div_nonpos_iff.mpr (Or.inr ⟨by norm_num, Complex.abs.nonneg _⟩)
    by_contra hlt
    push_neg at hlt
    exact absurd (Real.arccos_lt_pi_div_two.mp hlt) (not_lt.mpr hx)
  linarith

theorem arg_1m1_le_arg_11 : Complex.arg ⟨1, -1⟩ ≤ Complex.arg ⟨1, 1⟩ :=
  le_trans (le_of_lt (Complex.arg_neg_iff.mpr (by norm_num)))
    (Complex.arg_nonneg_iff.mpr (by norm_num))

theorem arg_11_le_arg_m11 : Complex.arg ⟨1, 1⟩ ≤ Complex.arg ⟨-1, 1⟩ := by
  rw [Complex.arg_of_im_pos (show (0 : ℝ) < ((⟨1, 1⟩ : ℂ)).im by norm_num),
    Complex.arg_of_im_pos (show (0 : ℝ) < ((⟨-1, 1⟩ : ℂ)).im by norm_num)]
  have h1 : Real.arccos ((⟨1, 1⟩ : ℂ).re / Complex.abs ⟨1, 1⟩) ≤ Real.pi / 2 :=
    Real.arccos_le_pi_div_two.mpr (div_nonneg (by norm_num) (Complex.abs.nonneg _))
  have h2 : Real.pi / 2 ≤ Real.arccos ((⟨-1, 1⟩ : ℂ).re / Complex.abs ⟨-1, 1⟩) := by
    have hx : (⟨-1, 1⟩ : ℂ).re / Complex.abs ⟨-1, 1⟩ ≤ 0 :=
      div_nonpos_iff.mpr (Or.inr ⟨by norm_num, Complex.abs.nonneg _⟩)
    by_contra hlt
    push_neg at hlt
    exact absurd (Real.arccos_lt_pi_div_two.mp hlt) (not_lt.mpr hx)
  linarith

theorem sortByKeyCached_four {T : Type} (key : T → ℝ) (a b c d : T)
    (h1 : key a ≤ key b) (h2 : key b ≤ key c) (h3 : key c ≤ key d) :
    sortByKeyCached [a, b, c, d] key = [a, b, c, d] := by
  have e1 : insertByKey key d [] = [d] := rfl
  have e2 : insertByKey key c [d] = [c, d] := by
    simp only [insertByKey]
    rw [if_neg (not_lt.mpr h3)]
  have e3 : insertByKey key b [c, d] = [b, c, d] := by
    simp only [insertByKey]
    rw [if_neg (not_lt.mpr h2)]
  have e4 : insertByKey key a [b, c, d] = [a, b, c, d] := by
    simp only [insertByKey]
    rw [if_neg (not_lt.mpr h1)]
  simp only [sortByKeyCached, e1, e2, e3, e4]

theorem normalize_20 : vectorNormalize ⟨2, 0⟩ = (⟨1, 0⟩ : Vector) := by
  simp only [vectorNormalize, vectorMagnitude]
  rw [show ((2 : ℝ) * 2 + 0 * 0) = 4 by norm_num, sqrt_four]
  norm_num

theorem normalize_02 : vectorNormalize ⟨0, 2⟩ = (⟨0, 1⟩ : Vector) := by
  simp only [vectorNormalize, vectorMagnitude]
  rw [show ((0 : ℝ) * 0 + 2 * 2) = 4 by norm_num, sqrt_four]
  norm_num

theorem normalize_m20 : vectorNormalize ⟨-2, 0⟩ = (⟨-1, 0⟩ : Vector) := by
  simp only [vectorNormalize, vectorMagnitude]
  rw [show ((-2 : ℝ) * -2 + 0 * 0) = 4 by norm_num, sqrt_four]
  norm_num

theorem normalize_0m2 : vectorNormalize ⟨0, -2⟩ = (⟨0, -1⟩ : Vector) := by
  simp only [vectorNormalize, vectorMagnitude]
  rw [show ((0 : ℝ) * 0 + -2 * -2) = 4 by norm_num, sqrt_four]
  norm_num

theorem pointsToRect_square4 : pointsToRect square4 = some ⟨0, 0, 2, 2⟩ := by
  have hcen : vectorScale (square4.foldl vectorAdd ⟨0, 0⟩) (1 / 4) = (⟨1, 1⟩ : Vector) := by
    simp only [square4, List.foldl_cons, List.foldl_nil, vectorAdd, vectorScale]
    norm_num
  have hsort : sortByKeyCached square4
      (fun p => vectorAngle (vectorSub p (⟨1, 1⟩ : Vector))) = square4 := by
    simp only [square4]
    apply sortByKeyCached_four
    · show vectorAngle (vectorSub ⟨0, 0⟩ ⟨1, 1⟩) ≤ vectorAngle (vectorSub ⟨2, 0⟩ ⟨1, 1⟩)
      rw [show vectorSub ⟨0, 0⟩ ⟨1, 1⟩ = (⟨-1, -1⟩ : Vector) from by norm_num [vectorSub],
        show vectorSub ⟨2, 0⟩ ⟨1, 1⟩ = (⟨1, -1⟩ : Vector) from by norm_num [vectorSub]]
      exact arg_m1m1_le_arg_1m1
    · show vectorAngle (vectorSub ⟨2, 0⟩ ⟨1, 1⟩) ≤ vectorAngle (vectorSub ⟨2, 2⟩ ⟨1, 1⟩)
      rw [show vectorSub ⟨2, 0⟩ ⟨1, 1⟩ = (⟨1, -1⟩ : Vector) from by norm_num [vectorSub],
        show vectorSub ⟨2, 2⟩ ⟨1, 1⟩ = (⟨1, 1⟩ : Vector) from by norm_num [vectorSub]]
      exact arg_1m1_le_arg_11
    · show vectorAngle (vectorSub ⟨2, 2⟩ ⟨1, 1⟩) ≤ vectorAngle (vectorSub ⟨0, 2⟩ ⟨1, 1⟩)
      rw [show vectorSub ⟨2, 2⟩ ⟨1, 1⟩ = (⟨1, 1⟩ : Vector) from by norm_num [vectorSub],
        show vectorSub ⟨0, 2⟩ ⟨1, 1⟩ = (⟨-1, 1⟩ : Vector) from by norm_num [vectorSub]]
      exact arg_11_le_arg_m11
  simp only [pointsToRect]
  rw [if_neg (by simp [square4])]
  rw [hcen, hsort]
  simp only [square4, List.getD_cons_zero, List.getD_cons_succ]
  rw [show vectorSub ⟨2, 0⟩ ⟨0, 0⟩ = (⟨2, 0⟩ : Vector) from by norm_num [vectorSub],
    show vectorSub ⟨2, 2⟩ ⟨2, 0⟩ = (⟨0, 2⟩ : Vector) from by norm_num [vectorSub],
    show vectorSub ⟨0, 2⟩ ⟨2, 2⟩ = (⟨-2, 0⟩ : Vector) from by norm_num [vectorSub],
    show vectorSub ⟨0, 0⟩ ⟨0, 2⟩ = (⟨0, -2⟩ : Vector) from by norm_num [vectorSub]]
  rw [normalize_20, normalize_02, normalize_m20, normalize_0m2]
  rw [show vectorDot ⟨1, 0⟩ RIGHT = 1 from by norm_num [vectorDot, RIGHT],
    show vectorDot ⟨0, 1⟩ DOWN = 1 from by norm_num [vectorDot, DOWN],
    show vectorDot ⟨-1, 0⟩ LEFT = 1 from by norm_num [vectorDot, LEFT],
    show vectorDot ⟨0, -1⟩ UP = 1 from by norm_num [vectorDot, UP]]
  rw [if_neg (by norm_num)]
  norm_num

/-- Witness for C4 at the 2-by-2 square drawn from its top-left corner. -/
theorem C4_pointsToRect_nonneg_witness :
    0 ≤ (Rect.mk 0 0 2 2).width ∧ 0 ≤ (Rect.mk 0 0 2 2).height :=
  C4_pointsToRect_nonneg square4 ⟨0, 0, 2, 2⟩ pointsToRect_square4

/-- C5: the reconstructor fails exactly on inputs without exactly 4 points, or
whose angularly sorted and labeled corners have some side direction with cosine
similarity below `0.999` against its expected axis direction (the source writes
the threshold as `1 - 0.001`, which equals `0.999` in the real model). -/
theorem C5_pointsToRect_none_iff (points : List Vector) :
    pointsToRect points = none ↔ notARectangle points := by
  simp only [pointsToRect, notARectangle]
  rw [show (0.999 : ℝ) = 1 - 0.001 from by norm_num]
  by_cases hlen : points.length ≠ 4
  · rw [if_pos hlen]
    exact iff_of_true rfl (Or.inl hlen)
  · rw [if_neg hlen]
    split_ifs with hc
    · exact iff_of_true rfl (Or.inr hc)
    · refine iff_of_false (by simp) ?_
      rintro (h | h)
      · exact hlen h
      · exact hc h


theorem pointsToRect_len_ne {ps : List Vector} (h : ps.length ≠ 4) :
    pointsToRect ps = none := by
  simp only [pointsToRect]
  rw [if_pos h]

/-- C1 (code bug): the claim says a vertical-line command only updates `y` and
appends the point, with emission happening only on `close`; but the source's
`vertical lineto` case falls through into `closepath`, emitting and clearing
the in-progress list at every vertical-line command.  On the path
`M0 0 L2 0 V2 L0 2 Z` the code therefore finds no rectangle (the list is
destroyed mid-path, holding 3 points), while the spec-described interpreter
finds the 2-by-2 square. -/
theorem C1_vertical_lineto_fallthrough :
    pathToRects fallthroughPath = [] ∧
      pathToRectsSpec fallthroughPath = [⟨0, 0, 2, 2⟩] := by
  constructor
  · have e1 : pointsToRect [(⟨0, 0⟩ : Vector), ⟨2, 0⟩, ⟨2, 2⟩] = none :=
      pointsToRect_len_ne (by simp)
    have e2 : pointsToRect [(⟨0, 2⟩ : Vector)] = none :=
      pointsToRect_len_ne (by simp)
    simp [pathToRects, fallthroughPath, pathToRectsGo, e1, e2]
  · have e3 : pointsToRect [(⟨0, 0⟩ : Vector), ⟨2, 0⟩, ⟨2, 2⟩, ⟨0, 2⟩] =
        some ⟨0, 0, 2, 2⟩ := by
      have h := pointsToRect_square4
      simpa [square4] using h
    simp [pathToRectsSpec, fallthroughPath, pathToRectsSpecGo, e3]

theorem selectEdge_complete_eq (keep : Bool) (st : EditorState)
    (closest t r b l : Edge)
    (h : setSelectedEdge st.selectedEdges closest = ⟨some t, some r, some b, some l⟩) :
    selectEdge keep st closest =
      ⟨st.svgUrl, st.svgWidth, st.svgHeight, st.edges, none,
        ⟨none, if keep then some r else none, none, if keep then some l else none⟩,
        st.cells ++
          [⟨st.cellCreatedCount + 1,
            inferCellName st.cells ⟨r.x, b.y, l.x - r.x, t.y - b.y⟩
              (toString (st.cellCreatedCount + 1)),
            ⟨r.x, b.y, l.x - r.x, t.y - b.y⟩⟩],
        st.cellCreatedCount + 1⟩ := by
  simp only [selectEdge, h]

/-- C2: whenever filling a slot leaves all four slots occupied, `selectEdge`
appends exactly one new cell, with rect built from the four edges
(`x` from right, `y` from bottom, `width = left.x - right.x`,
`height = top.y - bottom.y`), with id the incremented creation counter (the
counter itself also advances by one, so ids strictly increase across
completions) and the counter's decimal string as default name (kept whenever
the label-inference filter finds no cell above); afterwards the highlighted
edge and the top and bottom slots are empty, and the left and right slots are
empty exactly when keep-vertical-selection is disabled. -/
theorem C2_selectEdge_completion (keep : Bool) (st : EditorState)
    (closest t r b l : Edge)
    (h : setSelectedEdge st.selectedEdges closest = ⟨some t, some r, some b, some l⟩) :
    ∃ c : Cell,
      (selectEdge keep st closest).cells = st.cells ++ [c] ∧
      c.rect = ⟨r.x, b.y, l.x - r.x, t.y - b.y⟩ ∧
      c.id = st.cellCreatedCount + 1 ∧
      (selectEdge keep st closest).cellCreatedCount = st.cellCreatedCount + 1 ∧
      (st.cells.filter (fun cc =>
          decide (cc.rect.y + cc.rect.height < b.y ∧
            cc.rect.x ≤ r.x + (l.x - r.x) / 2 ∧
            r.x + (l.x - r.x) / 2 ≤ cc.rect.x + cc.rect.width)) = [] →
        c.name = toString (st.cellCreatedCount + 1)) ∧
      (selectEdge keep st closest).highlightedEdge = none ∧
      (selectEdge keep st closest).selectedEdges.top = none ∧
      (selectEdge keep st closest).selectedEdges.bottom = none ∧
      ((selectEdge keep st closest).selectedEdges.left = none ↔ keep = false) ∧
      ((selectEdge keep st closest).selectedEdges.right = none ↔ keep = false) := by
  rw [selectEdge_complete_eq keep st closest t r b l h]
  refine ⟨⟨st.cellCreatedCount + 1,
    inferCellName st.cells ⟨r.x, b.y, l.x - r.x, t.y - b.y⟩
      (toString (st.cellCreatedCount + 1)),
    ⟨r.x, b.y, l.x - r.x, t.y - b.y⟩⟩,
    rfl, rfl, rfl, rfl, ?_, rfl, rfl, rfl, ?_, ?_⟩
  · intro hfilt
    show inferCellName st.cells ⟨r.x, b.y, l.x - r.x, t.y - b.y⟩
      (toString (st.cellCreatedCount + 1)) = toString (st.cellCreatedCount + 1)
    simp only [inferCellName]
    rw [hfilt]
    rfl
  · cases keep <;> simp
  · cases keep <;> simp

/-- Witness for C2: completing the fourth slot of `stC2` with the left edge,
with keep-vertical-selection disabled. -/
theorem C2_selectEdge_completion_witness :
    (selectEdge false stC2 edgeLeft0).cellCreatedCount = stC2.cellCreatedCount + 1 ∧
    (selectEdge false stC2 edgeLeft0).highlightedEdge = none ∧
    (selectEdge false stC2 edgeLeft0).selectedEdges.top = none ∧
    (selectEdge false stC2 edgeLeft0).selectedEdges.bottom = none ∧
    ((selectEdge false stC2 edgeLeft0).selectedEdges.left = none ↔ false = false) := by
  obtain ⟨c, _, _, _, h4, _, h6, h7, h8, h9, _⟩ :=
    C2_selectEdge_completion false stC2 edgeLeft0 edgeTop0 edgeRight0 edgeBottom0
      edgeLeft0 rfl
  exact ⟨h4, h6, h7, h8, h9⟩

/-- C7: on cell completion the new cell's name follows the inference rule:
among existing cells strictly above the new rect whose horizontal span contains
its center, a cell with the greatest bottom coordinate is chosen; if its name
parses, the new name is that column with the row incremented, otherwise (or
when no such cell exists) the numeric default is kept. -/
theorem C7_label_inference (keep : Bool) (st : EditorState)
    (closest t r b l : Edge)
    (h : setSelectedEdge st.selectedEdges closest = ⟨some t, some r, some b, some l⟩) :
    ∃ c : Cell,
      (selectEdge keep st closest).cells = st.cells ++ [c] ∧
      c.rect = ⟨r.x, b.y, l.x - r.x, t.y - b.y⟩ ∧
      (st.cells.filter (fun cc =>
          decide (cc.rect.y + cc.rect.height < b.y ∧
            cc.rect.x ≤ r.x + (l.x - r.x) / 2 ∧
            r.x + (l.x - r.x) / 2 ≤ cc.rect.x + cc.rect.width)) = [] →
        c.name = toString (st.cellCreatedCount + 1)) ∧
      (st.cells.filter (fun cc =>
          decide (cc.rect.y + cc.rect.height < b.y ∧
            cc.rect.x ≤ r.x + (l.x - r.x) / 2 ∧
            r.x + (l.x - r.x) / 2 ≤ cc.rect.x + cc.rect.width)) ≠ [] →
        ∃ ca,
          ca ∈ st.cells.filter (fun cc =>
            decide (cc.rect.y + cc.rect.height < b.y ∧
              cc.rect.x ≤ r.x + (l.x - r.x) / 2 ∧
              r.x + (l.x - r.x) / 2 ≤ cc.rect.x + cc.rect.width)) ∧
          (∀ c' ∈ st.cells.filter (fun cc =>
              decide (cc.rect.y + cc.rect.height < b.y ∧
                cc.rect.x ≤ r.x + (l.x - r.x) / 2 ∧
                r.x + (l.x - r.x) / 2 ≤ cc.rect.x + cc.rect.width)),
            c'.rect.y + c'.rect.height ≤ ca.rect.y + ca.rect.height) ∧
          c.name = (match cellNameToCellPosition ca.name with
            | some pos => cellPositionToCellName ⟨pos.column, pos.row + 1⟩
            | none => toString (st.cellCreatedCount + 1))) := by
  rw [selectEdge_complete_eq keep st closest t r b l h]
  refine ⟨⟨st.cellCreatedCount + 1,
    inferCellName st.cells ⟨r.x, b.y, l.x - r.x, t.y - b.y⟩
      (toString (st.cellCreatedCount + 1)),
    ⟨r.x, b.y, l.x - r.x, t.y - b.y⟩⟩,
    rfl, rfl, ?_, ?_⟩
  · intro hfilt
    show inferCellName st.cells ⟨r.x, b.y, l.x - r.x, t.y - b.y⟩
      (toString (st.cellCreatedCount + 1)) = toString (st.cellCreatedCount + 1)
    simp only [inferCellName]
    rw [hfilt]
    rfl
  · intro hne
    show ∃ ca, _
    rcases hmax : maxByKey (st.cells.filter (fun cc =>
        decide (cc.rect.y + cc.rect.height < b.y ∧
          cc.rect.x ≤ r.x + (l.x - r.x) / 2 ∧
          r.x + (l.x - r.x) / 2 ≤ cc.rect.x + cc.rect.width)))
        (fun c => c.rect.y + c.rect.height) with _ | ca
    · exact absurd ((maxByKey_eq_none _ _).mp hmax) hne
    · obtain ⟨hmem, hall⟩ := maxByKey_spec _ _ _ hmax
      refine ⟨ca, hmem, hall, ?_⟩
      show inferCellName st.cells ⟨r.x, b.y, l.x - r.x, t.y - b.y⟩
        (toString (st.cellCreatedCount + 1)) = _
      simp only [inferCellName]
      rw [hmax]
      show (match cellNameToCellPosition ca.name with
        | none => toString (st.cellCreatedCount + 1)
        | some pos => cellPositionToCellName ⟨pos.column, pos.row + 1⟩) = _
      rcases hp : cellNameToCellPosition ca.name with _ | pos
      · simp only [hp]
      · simp only [hp]

/-- Witness for C7: completing a cell directly below the `a1` cell of `stC7`
names the new cell `a2`. -/
theorem C7_label_inference_witness :
    ((selectEdge false stC7 edgeLeft0).cells.getD 1 cellA).name = "a2" := by
  obtain ⟨c, hcells, hrect, hdflt, hne⟩ :=
    C7_label_inference false stC7 edgeLeft0 edgeTop0 edgeRight0 edgeBottom0
      edgeLeft0 rfl
  have hfilt : stC7.cells.filter (fun cc =>
      decide (cc.rect.y + cc.rect.height < edgeBottom0.y ∧
        cc.rect.x ≤ edgeRight0.x + (edgeLeft0.x - edgeRight0.x) / 2 ∧
        edgeRight0.x + (edgeLeft0.x - edgeRight0.x) / 2 ≤
          cc.rect.x + cc.rect.width)) = [cellA] := by
    simp only [stC7, cellA, edgeRight0, edgeBottom0, edgeLeft0, List.filter_cons,
      List.filter_nil, decide_eq_true_eq]
    rw [if_pos (by norm_num)]
  obtain ⟨ca, hmem, _, hname⟩ := hne (by rw [hfilt]; simp)
  rw [hfilt] at hmem
  have hca : ca = cellA := by simpa using hmem
  subst hca
  have hname2 : c.name = "a2" := by
    rw [hname]
    rfl
  rw [hcells]
  simp only [stC7, List.cons_append, List.nil_append, List.getD, List.getElem?_cons_succ,
    List.getElem?_cons_zero]
  simpa using hname2


/-- C8: the nearest-selectable-edge query never returns an edge whose kind's
slot is filled, never returns an edge at point-to-segment distance not
strictly below `50 / viewScale`, returns a distance minimizer among the
empty-slot edges, and returns `none` when no empty-slot edge is within the
threshold. -/
theorem C8_getClosestSelectableEdge (st : EditorState) (viewScale : ℝ) (p : Vector) :
    (∀ e, getClosestSelectableEdge st viewScale p = some e →
      slotOf st.selectedEdges e.kind = none ∧
      pointSegmentDistance (edgeToSegment e) p < 50 / viewScale ∧
      ∀ e' ∈ st.edges, slotOf st.selectedEdges e'.kind = none →
        pointSegmentDistance (edgeToSegment e) p ≤
          pointSegmentDistance (edgeToSegment e') p) ∧
    ((∀ e' ∈ st.edges, slotOf st.selectedEdges e'.kind = none →
        ¬ pointSegmentDistance (edgeToSegment e') p < 50 / viewScale) →
      getClosestSelectableEdge st viewScale p = none) := by
  constructor
  · intro e he
    simp only [getClosestSelectableEdge] at he
    rcases hmin : minByKey
        (st.edges.filter (fun e => (slotOf st.selectedEdges e.kind).isNone))
        (fun e => pointSegmentDistance (edgeToSegment e) p) with _ | e0
    · rw [hmin] at he
      cases he
    · rw [hmin] at he
      have he' : (if pointSegmentDistance (edgeToSegment e0) p < 50 / viewScale
          then some e0 else none) = some e := he
      by_cases hd : pointSegmentDistance (edgeToSegment e0) p < 50 / viewScale
      · rw [if_pos hd] at he'
        injection he' with he'
        subst he'
        obtain ⟨hmem, hall⟩ := minByKey_spec _ _ _ hmin
        have hm := List.mem_filter.mp hmem
        refine ⟨by simpa using hm.2, hd, ?_⟩
        intro e' he'mem he'slot
        exact hall e' (List.mem_filter.mpr ⟨he'mem, by simp [he'slot]⟩)
      · rw [if_neg hd] at he'
        cases he'
  · intro hfar
    simp only [getClosestSelectableEdge]
    rcases hmin : minByKey
        (st.edges.filter (fun e => (slotOf st.selectedEdges e.kind).isNone))
        (fun e => pointSegmentDistance (edgeToSegment e) p) with _ | e0
    · rw [hmin]
    · rw [hmin]
      obtain ⟨hmem, _⟩ := minByKey_spec _ _ _ hmin
      have hm := List.mem_filter.mp hmem
      have hslot : slotOf st.selectedEdges e0.kind = none := by simpa using hm.2
      show (if pointSegmentDistance (edgeToSegment e0) p < 50 / viewScale
          then some e0 else none) = none
      rw [if_neg (hfar e0 hm.1 hslot)]

theorem vectorMagnitude_ten : vectorMagnitude ⟨10, 0⟩ = 10 := by
  simp only [vectorMagnitude]
  rw [show ((10 : ℝ) * 10 + 0 * 0) = 10 ^ 2 by norm_num]
  exact Real.sqrt_sq (by norm_num)

theorem vectorMagnitude_0m2 : vectorMagnitude ⟨0, -2⟩ = 2 := by
  simp only [vectorMagnitude]
  rw [show ((0 : ℝ) * 0 + -2 * -2) = 2 ^ 2 by norm_num]
  exact Real.sqrt_sq (by norm_num)

theorem normalize_ten : vectorNormalize ⟨10, 0⟩ = (⟨1, 0⟩ : Vector) := by
  simp only [vectorNormalize]
  rw [vectorMagnitude_ten]
  norm_num

theorem distC8 : pointSegmentDistance ⟨⟨0, 0⟩, ⟨10, 0⟩⟩ ⟨1, 2⟩ = 2 := by
  simp only [pointSegmentDistance, segmentClosestPoint, segmentLength, vectorDistance]
  rw [show vectorSub ⟨10, 0⟩ ⟨0, 0⟩ = (⟨10, 0⟩ : Vector) from by norm_num [vectorSub]]
  rw [normalize_ten, vectorMagnitude_ten]
  rw [show vectorSub ⟨1, 2⟩ ⟨0, 0⟩ = (⟨1, 2⟩ : Vector) from by norm_num [vectorSub]]
  rw [show vectorDot ⟨1, 2⟩ ⟨1, 0⟩ = 1 from by norm_num [vectorDot]]
  rw [show clamp 1 0 10 = 1 from by norm_num [clamp]]
  rw [show vectorScale ⟨1, 0⟩ 1 = (⟨1, 0⟩ : Vector) from by norm_num [vectorScale]]
  rw [show vectorAdd ⟨0, 0⟩ ⟨1, 0⟩ = (⟨1, 0⟩ : Vector) from by norm_num [vectorAdd]]
  rw [show vectorSub ⟨1, 0⟩ ⟨1, 2⟩ = (⟨0, -2⟩ : Vector) from by norm_num [vectorSub]]
  exact vectorMagnitude_0m2

/-- Witness for C8: in `stC8` the query at `(1, 2)` returns the top edge,
whose slot is empty and whose distance `2` is below the threshold `50`. -/
theorem C8_getClosestSelectableEdge_witness :
    slotOf stC8.selectedEdges edgeTopC8.kind = none ∧
    pointSegmentDistance (edgeToSegment edgeTopC8) ⟨1, 2⟩ < 50 / 1 := by
  have hseg : edgeToSegment edgeTopC8 = ⟨⟨0, 0⟩, ⟨10, 0⟩⟩ := by
    simp only [edgeToSegment, edgeTopC8]
    norm_num
  have hval : getClosestSelectableEdge stC8 1 ⟨1, 2⟩ = some edgeTopC8 := by
    have hme : minByKey
        (stC8.edges.filter (fun e => (slotOf stC8.selectedEdges e.kind).isNone))
        (fun e => pointSegmentDistance (edgeToSegment e) ⟨1, 2⟩) = some edgeTopC8 := rfl
    simp only [getClosestSelectableEdge]
    rw [hme]
    show (if pointSegmentDistance (edgeToSegment edgeTopC8) ⟨1, 2⟩ < 50 / 1
        then some edgeTopC8 else none) = some edgeTopC8
    rw [if_pos]
    rw [hseg, distC8]
    norm_num
  obtain ⟨h1, h2, _⟩ := (C8_getClosestSelectableEdge stC8 1 ⟨1, 2⟩).1 edgeTopC8 hval
  exact ⟨h1, h2⟩

theorem findRectsGo_eq_none_iff (parsePath : String → Option (List PathCommand))
    (ds : List String) :
    findRectsGo parsePath ds = none ↔ ∃ d ∈ ds, parsePath d = none := by
  induction ds with
  | nil => simp [findRectsGo]
  | cons d ds ih =>
    simp only [findRectsGo]
    rcases hp : parsePath d with _ | path
    · simp [hp]
    · rcases hgo : findRectsGo parsePath ds with _ | rest
      · obtain ⟨d', hd', hnone⟩ := ih.mp hgo
        simp only [hp, hgo]
        exact iff_of_true (by trivial) ⟨d', List.mem_cons_of_mem _ hd', hnone⟩
      · simp only [hp, hgo]
        refine iff_of_false (by simp) ?_
        rintro ⟨d', hd', hnone⟩
        rcases List.mem_cons.mp hd' with hcase | hcase
        · subst hcase
          rw [hp] at hnone
          cases hnone
        · have hcontra := ih.mpr ⟨d', hcase, hnone⟩
          rw [hgo] at hcontra
          cases hcontra

theorem getViewBox_eq_none_iff (tpf : String → Option ℝ) (root : RootNode) :
    getViewBox tpf root = none ↔
      (viewBoxString root = none ∨
        ∃ s, viewBoxString root = some s ∧
          ((viewBoxChunks s).length ≠ 4 ∨
            tpf ((viewBoxChunks s).getD 0 "") = none ∨
            tpf ((viewBoxChunks s).getD 1 "") = none ∨
            tpf ((viewBoxChunks s).getD 2 "") = none ∨
            tpf ((viewBoxChunks s).getD 3 "") = none)) := by
  rcases hs : viewBoxString root with _ | s
  · simp [getViewBox, hs]
  · simp only [getViewBox, hs]
    by_cases hlen : (viewBoxChunks s).length = 4
    · rw [if_pos hlen]
      rcases h0 : tpf ((viewBoxChunks s).getD 0 "") with _ | a
      · exact iff_of_true (by simp [h0]) (Or.inr ⟨s, rfl, Or.inr (Or.inl h0)⟩)
      rcases h1 : tpf ((viewBoxChunks s).getD 1 "") with _ | b
      · exact iff_of_true (by simp [h0, h1])
          (Or.inr ⟨s, rfl, Or.inr (Or.inr (Or.inl h1))⟩)
      rcases h2 : tpf ((viewBoxChunks s).getD 2 "") with _ | c
      · exact iff_of_true (by simp [h0, h1, h2])
          (Or.inr ⟨s, rfl, Or.inr (Or.inr (Or.inr (Or.inl h2)))⟩)
      rcases h3 : tpf ((viewBoxChunks s).getD 3 "") with _ | d
      · exact iff_of_true (by simp [h0, h1, h2, h3])
          (Or.inr ⟨s, rfl, Or.inr (Or.inr (Or.inr (Or.inr h3)))⟩)
      refine iff_of_false (by simp [h0, h1, h2, h3]) ?_
      rintro (hbad | ⟨s', hs', hbad⟩)
      · cases hbad
      · injection hs' with hs'
        subst hs'
        rcases hbad with hbad | hbad | hbad | hbad | hbad
        · exact hbad hlen
        · rw [h0] at hbad
          cases hbad
        · rw [h1] at hbad
          cases hbad
        · rw [h2] at hbad
          cases hbad
        · rw [h3] at hbad
          cases hbad
    · rw [if_neg hlen]
      simp [hlen]

/-- C6: `parseSvg` fails exactly when the document markup is unparsable, some
collected path-data string fails to parse, or the view box is absent,
malformed (wrong chunk count or an unparsable chunk), or has a non-zero
origin; `Option` makes every failure all-or-nothing, so no partial result is
produced. -/
theorem C6_parseSvg_failure (parseDoc : String → Option RootNode)
    (parsePath : String → Option (List PathCommand))
    (tpf : String → Option ℝ) (svg : String) :
    (parseSvg parseDoc parsePath tpf svg = none ↔
      parseDoc svg = none ∨
      ∃ root, parseDoc svg = some root ∧
        (findRects parsePath root = none ∨
          getViewBox tpf root = none ∨
          ∃ vb, getViewBox tpf root = some vb ∧ (vb.x ≠ 0 ∨ vb.y ≠ 0))) ∧
    (∀ root, findRects parsePath root = none ↔
      ∃ d ∈ getPathDs root.children0, parsePath d = none) ∧
    (∀ root, getViewBox tpf root = none ↔
      (viewBoxString root = none ∨
        ∃ s, viewBoxString root = some s ∧
          ((viewBoxChunks s).length ≠ 4 ∨
            tpf ((viewBoxChunks s).getD 0 "") = none ∨
            tpf ((viewBoxChunks s).getD 1 "") = none ∨
            tpf ((viewBoxChunks s).getD 2 "") = none ∨
            tpf ((viewBoxChunks s).getD 3 "") = none))) := by
  refine ⟨?_, fun root => findRectsGo_eq_none_iff parsePath (getPathDs root.children0),
    fun root => getViewBox_eq_none_iff tpf root⟩
  rcases hdoc : parseDoc svg with _ | root
  · simp [parseSvg, hdoc]
  · simp only [parseSvg, hdoc]
    rcases hfr : findRects parsePath root with _ | rects
    · simp [hfr]
    · rcases hvb : getViewBox tpf root with _ | vb
      · simp [hfr, hvb]
      · simp only [hfr, hvb]
        by_cases hxy : vb.x ≠ 0 ∨ vb.y ≠ 0
        · rw [if_pos hxy]
          refine iff_of_true rfl ?_
          exact Or.inr ⟨root, rfl, Or.inr (Or.inr ⟨vb, hvb, hxy⟩)⟩
        · rw [if_neg hxy]
          refine iff_of_false (by simp) ?_
          rintro (hcase | ⟨root', hroot', hcase⟩)
          · cases hcase
          · injection hroot' with hroot'
            subst hroot'
            rcases hcase with hcase | hcase | ⟨vb', hvb', hcase⟩
            · rw [hfr] at hcase
              cases hcase
            · rw [hvb] at hcase
              cases hcase
            · rw [hvb] at hvb'
              injection hvb' with hvb'
              subst hvb'
              exact hxy hcase


theorem renameFold_fst_length (pos : CellPosition) (cell : Cell) (js : List ℕ)
    (acc : List Cell × ℕ) :
    ((js.foldl (renameStep pos cell) acc).1).length = acc.1.length := by
  induction js generalizing acc with
  | nil => rfl
  | cons j js ih =>
    rw [List.foldl_cons, ih]
    simp [renameStep]

theorem renameFold_get_not_mem (pos : CellPosition) (cell : Cell) (js : List ℕ)
    (acc : List Cell × ℕ) (j : ℕ) (hj : j ∉ js) :
    ((js.foldl (renameStep pos cell) acc).1).get? j = acc.1.get? j := by
  induction js generalizing acc with
  | nil => rfl
  | cons j0 js ih =>
    rw [List.foldl_cons, ih _ (fun hmem => hj (List.mem_cons_of_mem _ hmem))]
    have hne : j ≠ j0 := fun heq => hj (heq ▸ List.mem_cons_self _ _)
    simp only [renameStep]
    exact List.get?_set_ne _ _ hne.symm

theorem renameFold_get_mem (pos : CellPosition) (cell : Cell) :
    ∀ (js : List ℕ) (acc : List Cell × ℕ) (k : ℕ) (hk : k < js.length) (c : Cell),
      js.Nodup → acc.1.get? (js.get ⟨k, hk⟩) = some c →
      ((js.foldl (renameStep pos cell) acc).1).get? (js.get ⟨k, hk⟩) =
        some ⟨c.id, cellPositionToCellName ⟨pos.column, pos.row + acc.2 + k + 1⟩, c.rect⟩ := by
  intro js
  induction js with
  | nil =>
    intro acc k hk
    cases hk
  | cons j0 js ih =>
    intro acc k hk c hnd hq
    rcases List.nodup_cons.mp hnd with ⟨hj0, hnd'⟩
    cases k with
    | zero =>
      have hget : (j0 :: js).get ⟨0, hk⟩ = j0 := rfl
      rw [hget] at hq ⊢
      rw [List.foldl_cons, renameFold_get_not_mem pos cell js _ j0 hj0]
      simp only [renameStep]
      have hlt : j0 < acc.1.length := by
        rw [List.get?_eq_getElem?] at hq
        exact (List.getElem?_eq_some.mp hq).1
      have hgetD : acc.1.getD j0 cell = c := by
        rw [List.getD_eq_getElem?_getD, ← List.get?_eq_getElem?, hq]
        rfl
      rw [hgetD, List.get?_eq_getElem?, List.getElem?_set_self]
      simp [List.getElem?_eq_getElem, hlt]
    | succ k =>
      have hk' : k < js.length := Nat.lt_of_succ_lt_succ hk
      have hget : (j0 :: js).get ⟨k + 1, hk⟩ = js.get ⟨k, hk'⟩ := rfl
      rw [hget] at hq ⊢
      rw [List.foldl_cons]
      have hne : j0 ≠ js.get ⟨k, hk'⟩ := fun heq => hj0 (heq ▸ List.get_mem js k hk')
      have hq' : (renameStep pos cell acc j0).1.get? (js.get ⟨k, hk'⟩) = some c := by
        simp only [renameStep]
        rw [List.get?_set_ne _ _ hne]
        exact hq
      rw [ih (renameStep pos cell acc j0) k hk' c hnd' hq']
      have h2 : (renameStep pos cell acc j0).2 = acc.2 + 1 := rfl
      rw [h2]
      have harith : pos.row + (acc.2 + 1) + k + 1 = pos.row + acc.2 + (k + 1) + 1 := by
        omega
      rw [harith]

/-- C10 amended: `handleCellNameInput` first stores the typed name verbatim at
the renamed cell's index; when the name parses as a CellPosition, every index
whose cell's top lies strictly below the renamed cell's bottom and whose span
contains the renamed cell's center — possibly including the renamed index
itself, when its own rect satisfies that filter (this needs its height
negative and its width nonnegative) — is renamed, in nondecreasing order of
top `y`, to the column with row `r` plus the 1-based rank; all other indices,
the renamed cell's verbatim entry included, are left as stored. -/
theorem C10_handleCellNameInput_amended (cells : List Cell) (i : ℕ) (value : String)
    (cell : Cell) (pos : CellPosition) (hget : cells.get? i = some cell)
    (hpos : cellNameToCellPosition value = some pos) :
    ∃ js : List ℕ,
      js.Perm ((List.range (cells.set i ⟨cell.id, value, cell.rect⟩).length).filter
        (fun j =>
          match (cells.set i ⟨cell.id, value, cell.rect⟩).get? j with
          | some c =>
            decide (cell.rect.y + cell.rect.height < c.rect.y ∧
              c.rect.x ≤ cell.rect.x + cell.rect.width / 2 ∧
              cell.rect.x + cell.rect.width / 2 ≤ c.rect.x + c.rect.width)
          | none => false)) ∧
      js.Pairwise (fun a b =>
        ((cells.set i ⟨cell.id, value, cell.rect⟩).getD a cell).rect.y ≤
          ((cells.set i ⟨cell.id, value, cell.rect⟩).getD b cell).rect.y) ∧
      (handleCellNameInput cells i value).length = cells.length ∧
      (∀ k, ∀ hk : k < js.length, ∀ c : Cell,
        (cells.set i ⟨cell.id, value, cell.rect⟩).get? (js.get ⟨k, hk⟩) = some c →
        (handleCellNameInput cells i value).get? (js.get ⟨k, hk⟩) =
          some ⟨c.id, cellPositionToCellName ⟨pos.column, pos.row + k + 1⟩, c.rect⟩) ∧
      ∀ j, j ∉ js →
        (handleCellNameInput cells i value).get? j =
          (cells.set i ⟨cell.id, value, cell.rect⟩).get? j := by
  have hE : handleCellNameInput cells i value =
      ((sortByKeyCached
          ((List.range (cells.set i ⟨cell.id, value, cell.rect⟩).length).filter
            (fun j =>
              match (cells.set i ⟨cell.id, value, cell.rect⟩).get? j with
              | some c =>
                decide (cell.rect.y + cell.rect.height < c.rect.y ∧
                  c.rect.x ≤ cell.rect.x + cell.rect.width / 2 ∧
                  cell.rect.x + cell.rect.width / 2 ≤ c.rect.x + c.rect.width)
              | none => false))
          (fun j => ((cells.set i ⟨cell.id, value, cell.rect⟩).getD j cell).rect.y)).foldl
        (renameStep pos cell) (cells.set i ⟨cell.id, value, cell.rect⟩, 0)).1 := by
    simp only [handleCellNameInput, hget, hpos]
  have hnodup : (sortByKeyCached
      ((List.range (cells.set i ⟨cell.id, value, cell.rect⟩).length).filter
        (fun j =>
          match (cells.set i ⟨cell.id, value, cell.rect⟩).get? j with
          | some c =>
            decide (cell.rect.y + cell.rect.height < c.rect.y ∧
              c.rect.x ≤ cell.rect.x + cell.rect.width / 2 ∧
              cell.rect.x + cell.rect.width / 2 ≤ c.rect.x + c.rect.width)
          | none => false))
      (fun j => ((cells.set i ⟨cell.id, value, cell.rect⟩).getD j cell).rect.y)).Nodup :=
    (sortByKeyCached_perm _ _).nodup_iff.mpr ((List.nodup_range _).filter _)
  refine ⟨sortByKeyCached
      ((List.range (cells.set i ⟨cell.id, value, cell.rect⟩).length).filter
        (fun j =>
          match (cells.set i ⟨cell.id, value, cell.rect⟩).get? j with
          | some c =>
            decide (cell.rect.y + cell.rect.height < c.rect.y ∧
              c.rect.x ≤ cell.rect.x + cell.rect.width / 2 ∧
              cell.rect.x + cell.rect.width / 2 ≤ c.rect.x + c.rect.width)
          | none => false))
      (fun j => ((cells.set i ⟨cell.id, value, cell.rect⟩).getD j cell).rect.y),
    sortByKeyCached_perm _ _, sortByKeyCached_sorted _ _, ?_, ?_, ?_⟩
  · rw [hE, renameFold_fst_length]
    exact List.length_set cells i _
  · intro k hk c hc
    rw [hE]
    have := renameFold_get_mem pos cell _
      (cells.set i ⟨cell.id, value, cell.rect⟩, 0) k hk c hnodup hc
    simpa using this
  · intro j hj
    rw [hE]
    exact renameFold_get_not_mem pos cell _ _ j hj


/-- C10 counterexample: a cell whose rect has negative height and nonnegative
width satisfies the cascade filter itself, so renaming it to `a1` does not
leave the name verbatim — the cascade immediately overwrites it with `a2`. -/
theorem C10_rename_self_counterexample :
    handleCellNameInput [cellNegH] 0 "a1" = [⟨1, "a2", ⟨0, 0, 1, -1⟩⟩] ∧
      handleCellNameInput [cellNegH] 0 "a1" ≠ [⟨1, "a1", ⟨0, 0, 1, -1⟩⟩] := by
  have hpos : cellNameToCellPosition "a1" = some ⟨'a', 1⟩ := by decide
  have hg : ([cellNegH].get? 0) = some cellNegH := rfl
  have h1 : handleCellNameInput [cellNegH] 0 "a1" = [⟨1, "a2", ⟨0, 0, 1, -1⟩⟩] := by
    simp only [handleCellNameInput, hg, hpos, cellNegH]
    norm_num [List.range_succ, List.filter, sortByKeyCached, insertByKey, renameStep,
      List.getD, List.set]
    rfl
  refine ⟨h1, fun h2 => ?_⟩
  rw [h1] at h2
  injection h2 with hc _
  injection hc with _ hn _
  exact absurd hn (by decide)

/-- Witness for the amended C10 at a two-cell list: renaming the `b2` cell to
`a1` cascades through the theorem's characterization; in particular the length
is preserved. -/
theorem C10_handleCellNameInput_amended_witness :
    (handleCellNameInput cellsC10 0 "a1").length = 2 := by
  obtain ⟨js, _, _, hlen, _, _⟩ :=
    C10_handleCellNameInput_amended cellsC10 0 "a1" ⟨1, "b2", ⟨0, 0, 10, 10⟩⟩ ⟨'a', 1⟩
      rfl (by decide)
  exact hlen.trans rfl


/-- Witness for the amended C3 at `"b12"`, which parses to column `b`, row 12. -/
theorem C3_cellNameToCellPosition_amended_witness :
    ("b12" : String).data = 'b' :: ("b12" : String).data.tail ∧
      (⟨'b', 12⟩ : CellPosition).row = digitsToNat ("b12" : String).data.tail :=
  (C3_cellNameToCellPosition_amended "b12").2 ⟨'b', 12⟩ (by decide)


end

end Akiko
